import Mathlib

/-!
Verification of the grouping / join / rank core of the `datar` repository
against its natural-language specification.

The development shallowly embeds the relevant Python functions:

* `src/datar2/dplyr/_rank.py` — the rank-family kernels `_rank`,
  `_row_number`, `_ntile`, `_percent_rank`, `_cume_dist`;
* `src/datar2/dplyr/join.py` — `_reconstruct_tibble`, `_join` and the
  join verbs `right_join`, `semi_join`, `anti_join`;
* `src/datar/core/grouped.py` — `DatarGroupBy.copy`;
* `src/plyrda/funcs.py` — the name selectors `all_of` / `any_of`.

Missing values (NaN / NA) are modelled as `Option ℚ` with `none` for a
missing cell.  Machine floats are idealised as exact rationals: none of
the checked claims concerns floating-point rounding.
-/

namespace Datar

/-- A cell value: `none` is a missing value (NaN / NA). -/
abbrev Val := Option ℚ

/-- Minimum of a list of rationals (`0` on the empty list, which every
use guards against). Embeds `Series.min` / `nanmin` restricted to the
non-missing values. -/
def qMin : List ℚ → ℚ
  | [] => 0
  | h :: t => t.foldl (fun a b => if a ≤ b then a else b) h

/-- Maximum of a list of rationals (`0` on the empty list, which every
use guards against). Embeds `Series.max` / `nanmax` restricted to the
non-missing values. -/
def qMax : List ℚ → ℚ
  | [] => 0
  | h :: t => t.foldl (fun a b => if b ≤ a then a else b) h

/-! ## Rank-family kernels (`src/datar2/dplyr/_rank.py`) -/

/-- The non-missing values of a column, in order: embeds the implicit
`dropna` step of every pandas rank/cut kernel (NaN cells are skipped
when computing ranks, bin edges, minima and maxima). -/
def dropNA : List Val → List ℚ
  | [] => []
  | none :: t => dropNA t
  | some v :: t => v :: dropNA t

/-- Embeds `Series.rank(method="min", na_option="keep")`: a non-missing
value `v` gets competition rank `1 + #(non-missing values < v)`; a
missing value stays missing.  This is `_rank(data, na_last="keep",
method="min")` from `_rank.py`. -/
def rankMinKeep (xs : List Val) : List Val :=
  let vs := dropNA xs
  xs.map (fun o => o.map (fun v => ((1 + vs.countP (fun w => decide (w < v)) : ℕ) : ℚ)))

/-- Embeds `Series.rank(method="min", na_option="keep", pct=True)`:
the min-method rank divided by the number of non-missing values.
This is `_rank(data, na_last="keep", method="min", percent=True)`. -/
def rankMinKeepPct (xs : List Val) : List Val :=
  let vs := dropNA xs
  xs.map (fun o => o.map (fun v =>
    ((1 + vs.countP (fun w => decide (w < v)) : ℕ) : ℚ) / (vs.length : ℚ)))

/-- Embeds the `NDFrame` branch of `_row_number` in `_rank.py`:
`Series(range(1, x.shape[0] + 1))` for a table with `n` rows (on an
empty table the code only adjusts the dtype; the value is still the
empty series). -/
def rowNumberDF (n : ℕ) : List ℕ :=
  List.range' 1 n

/-- Embeds the `GroupBy` branch of `_row_number`: `x.cumcount() + 1`,
i.e. each row is numbered by one plus the number of earlier rows in the
same group; `gs` lists each row's group key in row order and `seen`
accumulates the keys of the rows already passed. -/
def rowNumberGroupedAux (seen : List ℕ) : List ℕ → List ℕ
  | [] => []
  | g :: rest => (seen.countP (fun g2 => decide (g2 = g)) + 1) :: rowNumberGroupedAux (seen ++ [g]) rest

/-- `x.cumcount() + 1` over the whole column, starting with nothing seen. -/
def rowNumberGrouped (gs : List ℕ) : List ℕ :=
  rowNumberGroupedAux [] gs

/-- The values of a row-aligned result column restricted to the rows of
group `g`, in row order. -/
def groupSlice (g : ℕ) (gs : List ℕ) (out : List ℕ) : List ℕ :=
  (out.zip gs).filterMap (fun p => if p.2 = g then some p.1 else none)

/-- Embeds the bin-edge adjustment of `pandas.cut(x, bins=k)`: when the
data range is degenerate (`mn = mx`) both edges are moved out by 0.1 %
of the magnitude (by 0.001 when the value is 0); otherwise the edges are
the true minimum and maximum.  (`pandas` also lowers the very first edge
by 0.1 % of the range so that the minimum falls inside the first bin;
`cutLabel` accounts for that by giving the minimum label 0 directly.) -/
def cutEdges (mn mx : ℚ) : ℚ × ℚ :=
  if mn = mx then
    (mn - (if mn = 0 then 1 / 1000 else |mn| / 1000),
      mx + (if mx = 0 then 1 / 1000 else |mx| / 1000))
  else (mn, mx)

/-- Embeds the bucket assignment of `pandas.cut(x, bins=k, labels=range(k))`
with right-closed intervals: value `v` gets the first label `i < k` with
`v ≤ lo + (i+1)·(hi−lo)/k`, where `lo, hi` are the (possibly adjusted)
edges of the data range.  `pandas` finds the same bin by binary search
over the `linspace(lo, hi, k+1)` edges. -/
def cutLabel (mn mx : ℚ) (k : ℕ) (v : ℚ) : ℕ :=
  match (List.range k).find?
      (fun i : ℕ => decide (v ≤ (cutEdges mn mx).1
        + ((i : ℚ) + 1) * ((cutEdges mn mx).2 - (cutEdges mn mx).1) / (k : ℚ))) with
  | some i => i
  | none => k - 1

/-- Embeds the `np.ndarray` branch of `_ntile` in `_rank.py`:
empty input gives an empty result; all-missing input gives an
all-missing result; otherwise `n` is capped at the total length
(`n = min(n, x.size)`) and each non-missing value is labelled by the
equal-width bin of `pd.cut(x, n, labels=range(n))` that contains it
(missing values stay missing). -/
def ntileArr (xs : List Val) (n : ℕ) : List (Option ℕ) :=
  if xs = [] then []
  else
    let vs := dropNA xs
    if vs = [] then xs.map (fun _ => none)
    else
      let k := min n xs.length
      xs.map (fun o => o.map (fun v => cutLabel (qMin vs) (qMax vs) k v))

/-- Embeds the `GroupBy` branch of `_ntile`:
`x.transform(lambda grup: pd.cut(grup, min(n, len(grup)), labels=range(min(n, len(grup)))))`.
Each row's label depends only on its own group's slice: the bin count is
capped at that group's size and the bins are equal-width over that
group's non-missing value range.  `pairs` lists `(group key, value)` per
row in row order. -/
def ntileGrouped (pairs : List (ℕ × Val)) (n : ℕ) : List (Option ℕ) :=
  pairs.map (fun p =>
    let grp := (pairs.filter (fun q => q.1 = p.1)).map (fun q => q.2)
    let vs := dropNA grp
    p.2.map (fun v => cutLabel (qMin vs) (qMax vs) (min n grp.length) v))

/-- Embeds the `NDFrame` branch of `_percent_rank` together with the
length-0 short-circuit of its default branch: percentile min-ranks
(`_rank(x, na_last, "min", True)`) normalised by
`(ranking − ranking.min()) / (ranking.max() − ranking.min())`; missing
inputs stay missing (`ret[pd.isnull(ranking)] = np.nan`).  The
normalisation is NaN — modelled as missing — exactly when the rank
range is degenerate (`max = min`): every non-missing rank then equals
the minimum, so the division is `0/0` (this also covers all-missing
input, where `min`/`max` of an all-NaN series are NaN and propagate). -/
def percentRankCode (xs : List Val) : List Val :=
  if xs.length = 0 then []
  else
    let ranking := rankMinKeepPct xs
    let rs := dropNA ranking
    ranking.map (fun o => o.bind (fun r =>
      if qMax rs = qMin rs then none
      else some ((r - qMin rs) / (qMax rs - qMin rs))))

/-- Modelled from the spec: `percent_rank` as `(rank − min_rank) /
(max_rank − min_rank)` computed on plain min-method ranks restricted to
the non-missing values, with missing inputs producing missing outputs
and a degenerate rank range (`max_rank = min_rank`, a `0/0`) producing
missing.  Stated for comparison with `percentRankCode`, which works on
percentile (`pct=True`) ranks instead. -/
def percentRankSpec (xs : List Val) : List Val :=
  if xs.length = 0 then []
  else
    let ranking := rankMinKeep xs
    let rs := dropNA ranking
    ranking.map (fun o => o.bind (fun r =>
      if qMax rs = qMin rs then none
      else some ((r - qMin rs) / (qMax rs - qMin rs))))

/-- Modelled from the spec: the `percent_rank` value of one cell with
respect to the column slice `xs` it belongs to — its min-method rank
among the non-missing values of `xs`, normalised by
`(rank − min_rank) / (max_rank − min_rank)`; missing cell → missing,
degenerate rank range (`0/0`) → missing.  Used to state that the
grouped kernel computes exactly this, per group. -/
def percentRankSpecAt (xs : List Val) (o : Val) : Val :=
  o.bind (fun v =>
    if qMax (dropNA (rankMinKeep xs)) = qMin (dropNA (rankMinKeep xs)) then none
    else some ((((1 + (dropNA xs).countP (fun w => decide (w < v)) : ℕ) : ℚ)
        - qMin (dropNA (rankMinKeep xs)))
      / (qMax (dropNA (rankMinKeep xs)) - qMin (dropNA (rankMinKeep xs)))))

/-- Embeds the `GroupBy` branch of `_percent_rank` in `_rank.py`:
`_rank(x, na_last, "min", True)` ranks within each group (percentile
min-ranks over the group's non-missing values), `transform("max")` /
`transform("min")` broadcast each group's extreme ranks to its rows,
the transform normalises each row by its own group's rank range, and
`ret[ranking.obj.isna()] = np.nan` re-masks missing inputs.  Each row's
value therefore depends only on its own group's slice: its within-group
percentile min-rank `(1 + #(smaller non-missing)) / #(non-missing)`
normalised by the group's min/max rank, `0/0` (degenerate group range)
giving NaN.  `pairs` lists `(group key, value)` per row in row order. -/
def percentRankGrouped (pairs : List (ℕ × Val)) : List Val :=
  pairs.map (fun p =>
    let grp := (pairs.filter (fun q => q.1 = p.1)).map (fun q => q.2)
    let rs := dropNA (rankMinKeepPct grp)
    p.2.bind (fun v =>
      if qMax rs = qMin rs then none
      else some ((((1 + (dropNA grp).countP (fun w => decide (w < v)) : ℕ) : ℚ)
          / ((dropNA grp).length : ℚ) - qMin rs) / (qMax rs - qMin rs))))

/-- Embeds the `NDFrame` branch of `_cume_dist` together with the
length-0 short-circuit of its default branch: min-method ranks, and for
each non-missing rank `r` the count of ranks `≤ r` (missing ranks
compare false) divided by the total length; missing inputs stay
missing. -/
def cumeDistCode (xs : List Val) : List Val :=
  if xs.length = 0 then []
  else
    let ranking := rankMinKeep xs
    ranking.map (fun o => o.map (fun r =>
      ((ranking.countP (fun o2 => (o2.map (fun r2 => decide (r2 ≤ r))).getD false) : ℕ) : ℚ)
        / (xs.length : ℚ)))

/-! ## Tables and joins (`src/datar2/dplyr/join.py`) -/

/-- A data frame: ordered column names plus rows, each row a list of
cells aligned with `cols`.  This is the raw (ungrouped) pandas
`DataFrame` view that `_join` works on. -/
structure DF where
  cols : List String
  rows : List (List Val)
deriving DecidableEq

/-- The value of column `c` in a row: the cell aligned with the first
occurrence of `c` in the column list, `none` when the column is absent
(or the row is too short).  Embeds positional column lookup `row[c]`. -/
def rowVal (cols : List String) (row : List Val) (c : String) : Val :=
  match cols, row with
  | [], _ => none
  | _ :: _, [] => none
  | c2 :: cs, v :: vs => if c2 = c then v else rowVal cs vs c

/-- Projection of a row of a frame with columns `allCols` onto the
column list `cols` (`frame[cols]`). -/
def projCols (cols allCols : List String) (row : List Val) : List Val :=
  cols.map (rowVal allCols row)

/-- The join key of a row: its values in the `on` columns, in `on`
order. -/
def keyOf (cols onCols : List String) (row : List Val) : List Val :=
  onCols.map (rowVal cols row)

/-- The columns pandas infers when `pd.merge` gets no `on=` (and
`_join` gets `by=None`): the columns common to both frames, in left
order.  (`_join` computes the same set with `intersect(x.columns,
y.columns)`.) -/
def commonCols (x y : DF) : List String :=
  x.cols.filter (fun c => y.cols.contains c)

/-- Output columns of `pd.merge(x, y, on=...)`: the left columns
followed by the right columns that are not join keys.  (The claims
checked here never exercise the duplicate-column suffix pair.) -/
def outColsOn (x y : DF) (onCols : List String) : List String :=
  x.cols ++ y.cols.filter (fun c => !(onCols.contains c))

/-- One output row of `pd.merge(x, y, on=...)` built from an optional
matching left row and an optional matching right row: key columns come
from whichever side is present (equal on both when both match), other
columns from their own side, `none` (NaN fill) when that side is
unmatched. -/
def mkJoinRow (x y : DF) (onCols : List String) (orx ory : Option (List Val)) : List Val :=
  (outColsOn x y onCols).map (fun c =>
    if onCols.contains c then
      match orx, ory with
      | some rx, _ => rowVal x.cols rx c
      | none, some ry => rowVal y.cols ry c
      | none, none => none
    else if x.cols.contains c then
      match orx with
      | some rx => rowVal x.cols rx c
      | none => none
    else
      match ory with
      | some ry => rowVal y.cols ry c
      | none => none)

/-- Whether a left row and a right row agree on the join key. -/
def keyMatch (x y : DF) (onCols : List String) (rx ry : List Val) : Bool :=
  decide (keyOf x.cols onCols rx = keyOf y.cols onCols ry)

/-- `pd.merge(..., how="inner")` rows: left-major order, every matching
pair. -/
def innerRows (x y : DF) (onCols : List String) : List (List Val) :=
  x.rows.flatMap (fun rx =>
    (y.rows.filter (keyMatch x y onCols rx)).map (fun ry =>
      mkJoinRow x y onCols (some rx) (some ry)))

/-- `pd.merge(..., how="left")` rows: left-major order, unmatched left
rows NaN-filled on the right side. -/
def leftRows (x y : DF) (onCols : List String) : List (List Val) :=
  x.rows.flatMap (fun rx =>
    let ms := y.rows.filter (keyMatch x y onCols rx)
    if ms = [] then [mkJoinRow x y onCols (some rx) none]
    else ms.map (fun ry => mkJoinRow x y onCols (some rx) (some ry)))

/-- `pd.merge(..., how="right")` rows: right-major order (each right
row in turn, its left matches in left order), unmatched right rows
NaN-filled on the left side.  This is the order the `right_join`
docstring documents: "The rows of the order is preserved according to
`y`." -/
def rightRows (x y : DF) (onCols : List String) : List (List Val) :=
  y.rows.flatMap (fun ry =>
    let ms := x.rows.filter (fun rx => keyMatch x y onCols rx ry)
    if ms = [] then [mkJoinRow x y onCols none (some ry)]
    else ms.map (fun rx => mkJoinRow x y onCols (some rx) (some ry)))

/-- `pd.merge(..., how="outer", sort=False)` rows: the left-join rows
followed by the unmatched right rows. -/
def outerRows (x y : DF) (onCols : List String) : List (List Val) :=
  leftRows x y onCols ++
    (y.rows.filter (fun ry => !(x.rows.any (fun rx => keyMatch x y onCols rx ry)))).map
      (fun ry => mkJoinRow x y onCols none (some ry))

/-- The four `how=` modes `_join` passes to `pd.merge` ("outer" is what
`full_join` requests). -/
inductive JoinHow where
  | inner | left | right | outer
deriving DecidableEq

/-- `pd.merge(x, y, on=on, how=how)` with same-named keys. -/
def mergeOn (x y : DF) (onCols : List String) (how : JoinHow) : DF :=
  { cols := outColsOn x y onCols,
    rows :=
      match how with
      | .inner => innerRows x y onCols
      | .left => leftRows x y onCols
      | .right => rightRows x y onCols
      | .outer => outerRows x y onCols }

/-- `pd.merge(x, y, how="cross")`: every left row paired with every
right row, left-major order, all columns kept. -/
def crossMerge (x y : DF) : DF :=
  { cols := x.cols ++ y.cols,
    rows := x.rows.flatMap (fun rx => y.rows.map (fun ry => rx ++ ry)) }

/-- Embeds the dispatch of `_join` in `join.py` for a list-or-`None`
key specification with `keep=False` (the `dict` and `keep=True`
branches are not exercised by the checked claims): a `by` that is not
`None` but empty (`by is not None and not by`) short-circuits to
`pd.merge(..., how="cross")` before any key inference; `by=None` infers
the keys as the common columns; otherwise the given keys are used. -/
def joinKernel (x y : DF) (how : JoinHow) (bySpec : Option (List String)) : DF :=
  match bySpec with
  | some [] => crossMerge x y
  | some bs => mergeOn x y bs how
  | none => mergeOn x y (commonCols x y) how

/-- `DataFrame.drop_duplicates(subset)` keeping the first occurrence of
each key: a row survives iff no earlier row has the same projection to
the `keys` columns.  `seen` accumulates the key projections already
kept. -/
def dedupOnAux (cols keys : List String) (seen : List (List Val)) :
    List (List Val) → List (List Val)
  | [] => []
  | r :: rest =>
    let k := keyOf cols keys r
    if seen.contains k then dedupOnAux cols keys seen rest
    else r :: dedupOnAux cols keys (seen ++ [k]) rest

/-- `drop_duplicates(keys)` over a whole row list. -/
def dedupOn (cols keys : List String) (rows : List (List Val)) : List (List Val) :=
  dedupOnAux cols keys [] rows

/-- Embeds `semi_join` from `join.py` at the row level, for a
list-or-`None` `by`: the right frame is first de-duplicated on
`right_on` — the `by` columns when `by` is given, ALL right columns
when `by is None` — then left-merged with `x` with an indicator, rows
with indicator "both" are kept, and the result is projected back onto
`x.columns`.  With suffixes `["", "_y"]` the left columns keep their
names and values through the merge, so each kept merged row projects
back to its left row `rx`; the merge contributes one copy of `rx` per
surviving right match. -/
def semiJoinRows (x y : DF) (bySpec : Option (List String)) : List (List Val) :=
  let rightOn := match bySpec with | none => y.cols | some bs => bs
  let onCols := match bySpec with | none => commonCols x y | some bs => bs
  let yd := dedupOn y.cols rightOn y.rows
  x.rows.flatMap (fun rx =>
    (yd.filter (fun ry => keyMatch x y onCols rx ry)).map (fun _ => rx))

/-- Embeds `anti_join` from `join.py` at the row level, for a
list-or-`None` `by`: left-merge with an indicator (no de-duplication
here), keep the rows whose indicator is not "both", project back onto
`x.columns`.  A left row with at least one key match only produces
"both" rows (all dropped); a left row with no match produces exactly
one "left_only" row, which projects back to the left row itself. -/
def antiJoinRows (x y : DF) (bySpec : Option (List String)) : List (List Val) :=
  let onCols := match bySpec with | none => commonCols x y | some bs => bs
  x.rows.flatMap (fun rx =>
    let ms := y.rows.filter (fun ry => keyMatch x y onCols rx ry)
    if ms = [] then [rx] else [])

/-! ## Grouping metadata and reconstruction (`_reconstruct_tibble`) -/

/-- The grouping state a tibble carries: `plain` (a bare `Tibble`),
`grouped gvars sort dropna drop` (a `TibbleGrouped` with its grouping
columns and the `sort` / `dropna` / `_drop` policies of its pandas
grouper), or `rowwise gvars` (a `TibbleRowwise`, whose `gvars` are
display/propagation metadata only). -/
inductive Grouping where
  | plain : Grouping
  | grouped : List String → Bool → Bool → Bool → Grouping
  | rowwise : List String → Grouping
deriving DecidableEq

/-- A table together with its grouping metadata. -/
structure GTable where
  df : DF
  grouping : Grouping
deriving DecidableEq

/-- Modelled from the spec: `datar2.base.intersect` (its module is not
under `src/`); per the spec's reconstruction rule the intersection
keeps the order of the first argument ("order preserved from source"),
so it is the first list filtered by membership in the second. -/
def intersectOrd (a b : List String) : List String :=
  a.filter (fun c => b.contains c)

/-- Embeds `_reconstruct_tibble(orig, out)` from `join.py`:
a rowwise source makes the result rowwise over the surviving grouping
columns; a grouped source makes the result grouped over the surviving
grouping columns when any survive — re-grouping afresh with the
source's `sort`, `dropna` and `_drop` policies — and leaves it plain
otherwise; a plain source leaves the result plain.
(`out.group_by` / `out.rowwise` live in `datar2/core/tibble.py`, not
under `src/`; they are modelled from the spec as attaching the
corresponding grouping metadata to the result table.) -/
def reconstructTibble (orig : GTable) (out : DF) : GTable :=
  match orig.grouping with
  | .rowwise gv => ⟨out, .rowwise (intersectOrd gv out.cols)⟩
  | .grouped gv s dn dr =>
    let g := intersectOrd gv out.cols
    if g = [] then ⟨out, .plain⟩ else ⟨out, .grouped g s dn dr⟩
  | .plain => ⟨out, .plain⟩

/-- `right_join` from `join.py` at the level of this model: the raw
`pd.merge(..., how="right")` result reconstructed against the LEFT
input's grouping. -/
def rightJoinVerb (x : GTable) (y : DF) (bySpec : Option (List String)) : GTable :=
  reconstructTibble x (joinKernel x.df y .right bySpec)

/-- `semi_join` as a verb: filtered rows, columns unchanged,
reconstructed against the left input. -/
def semiJoinVerb (x : GTable) (y : DF) (bySpec : Option (List String)) : GTable :=
  reconstructTibble x ⟨x.df.cols, semiJoinRows x.df y bySpec⟩

/-- `anti_join` as a verb: filtered rows, columns unchanged,
reconstructed against the left input. -/
def antiJoinVerb (x : GTable) (y : DF) (bySpec : Option (List String)) : GTable :=
  reconstructTibble x ⟨x.df.cols, antiJoinRows x.df y bySpec⟩

/-! ## Name selection (`src/plyrda/funcs.py`) -/

/-- Embeds `all_of(_data, x)`: if any requested name is missing from
the data's columns, raise `ColumnNotExistingError`; otherwise return
the requested names as given. -/
def allOf (cols xs : List String) : Except String (List String) :=
  if xs.filter (fun e => !(cols.contains e)) = [] then .ok xs
  else .error "ColumnNotExistingError"

/-- Embeds `any_of(_data, x)`: keep exactly the requested names that
are data columns, in request order; never raises. -/
def anyOf (cols xs : List String) : List String :=
  xs.filter (fun e => cols.contains e)

/-! ## `DatarGroupBy.copy` (`src/datar/core/grouped.py`) -/

/-- A `DatarGroupBy` value: the underlying data frame, the keys present
in its pandas `attrs` dictionary, the row-position partition stored in
`attrs["_grouped"]` when it was built, and the grouping columns. -/
structure DatarGB where
  df : DF
  attrs : List String
  storedIndex : List (List ℕ)
  gvars : List String
deriving DecidableEq

/-- Partition of the row positions of `df` by the values of the
grouping columns, one block per distinct key in first-occurrence order:
what `df.groupby(gvars)` computes. -/
def buildIndex (df : DF) (gvars : List String) : List (List ℕ) :=
  let ks := df.rows.map (keyOf df.cols gvars)
  let distinct := ks.foldl (fun acc k => if acc.contains k then acc else acc ++ [k]) []
  distinct.map (fun k =>
    (ks.enum).filterMap (fun p => if p.2 = k then some p.1 else none))

/-- Embeds `DatarGroupBy.from_groupby(DataFrameGroupBy)`: wraps the
frame and sets the four attribute keys, storing the grouper's
partition. -/
def fromGroupby (df : DF) (gvars : List String) : DatarGB :=
  { df := df,
    attrs := ["_grouped", "_group_vars", "_html_footer", "_str_footer"],
    storedIndex := buildIndex df gvars,
    gvars := gvars }

/-- Embeds `DatarGroupBy.copy(deep)` EXACTLY as written in
`grouped.py`, misspelt attribute key included: when the key
`"_grouepd"` (sic) is absent from `attrs` the method returns
`super().copy(deep=deep)` — a plain `DataFrame` copy that carries the
`attrs` (and hence the stored index object) over unchanged; only
otherwise would it clone via `from_groupby` (shallow) or re-derive the
grouper (deep).  As a value, a plain pandas copy of a `DatarGB` is the
same `DatarGB`. -/
def copyDGB (g : DatarGB) (deep : Bool) : DatarGB :=
  if "_grouepd" ∉ g.attrs then g
  else if !deep then g
  else { g with storedIndex := buildIndex g.df g.gvars }

/-- The copy method as its own docstring and the spec describe it
(testing the attribute key `"_grouped"` that `from_groupby` actually
sets): shallow copy shares the stored index, deep copy re-derives it
from the grouping definition. -/
def copyDGBIntended (g : DatarGB) (deep : Bool) : DatarGB :=
  if "_grouped" ∉ g.attrs then g
  else if !deep then g
  else { g with storedIndex := buildIndex g.df g.gvars }

end Datar


namespace Datar

/-! ## Helper lemmas -/

theorem range'_one_eq_map (n : ℕ) :
    List.range' 1 n = (List.range n).map (fun i => i + 1) := by
  simp [List.range'_eq_map_range, Nat.add_comm]

theorem groupSlice_cons (g h v : ℕ) (t rest : List ℕ) :
    groupSlice g (h :: t) (v :: rest)
      = if h = g then v :: groupSlice g t rest else groupSlice g t rest := by
  by_cases hg : h = g <;> simp [groupSlice, hg]

theorem qMin_foldl_le_init (t : List ℚ) :
    ∀ acc : ℚ, t.foldl (fun a b => if a ≤ b then a else b) acc ≤ acc := by
  induction t with
  | nil => intro acc; exact le_refl acc
  | cons a t' ih =>
    intro acc
    refine le_trans (ih _) ?_
    show (if acc ≤ a then acc else a) ≤ acc
    by_cases h : acc ≤ a
    · rw [if_pos h]
    · rw [if_neg h]
      exact le_of_not_le h

theorem qMin_foldl_le_mem (t : List ℚ) :
    ∀ (acc x : ℚ), x ∈ t → t.foldl (fun a b => if a ≤ b then a else b) acc ≤ x := by
  induction t with
  | nil => intro _ x hx; cases hx
  | cons a t' ih =>
    intro acc x hx
    rcases List.mem_cons.mp hx with h | h
    · subst h
      refine le_trans (qMin_foldl_le_init t' _) ?_
      show (if acc ≤ x then acc else x) ≤ x
      by_cases hle : acc ≤ x
      · rw [if_pos hle]; exact hle
      · rw [if_neg hle]
    · exact ih _ x h

theorem qMin_le_mem {x : ℚ} {l : List ℚ} (hx : x ∈ l) : qMin l ≤ x := by
  cases l with
  | nil => cases hx
  | cons h t =>
    rcases List.mem_cons.mp hx with hh | ht
    · subst hh; exact qMin_foldl_le_init t x
    · exact qMin_foldl_le_mem t h x ht

theorem qMax_foldl_ge_init (t : List ℚ) :
    ∀ acc : ℚ, acc ≤ t.foldl (fun a b => if b ≤ a then a else b) acc := by
  induction t with
  | nil => intro acc; exact le_refl acc
  | cons a t' ih =>
    intro acc
    refine le_trans ?_ (ih _)
    show acc ≤ (if a ≤ acc then acc else a)
    by_cases h : a ≤ acc
    · rw [if_pos h]
    · rw [if_neg h]
      exact le_of_not_le h

theorem qMax_foldl_ge_mem (t : List ℚ) :
    ∀ (acc x : ℚ), x ∈ t → x ≤ t.foldl (fun a b => if b ≤ a then a else b) acc := by
  induction t with
  | nil => intro _ x hx; cases hx
  | cons a t' ih =>
    intro acc x hx
    rcases List.mem_cons.mp hx with h | h
    · subst h
      refine le_trans ?_ (qMax_foldl_ge_init t' _)
      show x ≤ (if x ≤ acc then acc else x)
      by_cases hle : x ≤ acc
      · rw [if_pos hle]; exact hle
      · rw [if_neg hle]
    · exact ih _ x h

theorem qMax_ge_mem {x : ℚ} {l : List ℚ} (hx : x ∈ l) : x ≤ qMax l := by
  cases l with
  | nil => cases hx
  | cons h t =>
    rcases List.mem_cons.mp hx with hh | ht
    · subst hh; exact qMax_foldl_ge_init t x
    · exact qMax_foldl_ge_mem t h x ht

theorem dropNA_mem {v : ℚ} {xs : List Val} : v ∈ dropNA xs ↔ some v ∈ xs := by
  induction xs with
  | nil => simp [dropNA]
  | cons h t ih =>
    cases h with
    | none => simp [dropNA, ih]
    | some w => simp [dropNA, ih, eq_comm]

theorem find?_range'_first {p : ℕ → Bool} :
    ∀ (m s i : ℕ), (List.range' s m).find? p = some i →
      p i = true ∧ s ≤ i ∧ i < s + m ∧ ∀ j, s ≤ j → j < i → p j = false := by
  intro m
  induction m with
  | zero => intro s i h; simp [List.range'] at h
  | succ m' ih =>
    intro s i h
    rw [List.range'_succ] at h
    rw [List.find?_cons] at h
    rcases hps : p s with hf | ht
    · rw [hps] at h
      simp only at h
      obtain ⟨hpi, hsi, hlt, hmin⟩ := ih (s + 1) i h
      refine ⟨hpi, le_trans (Nat.le_succ s) hsi, by omega, ?_⟩
      intro j hj hji
      rcases Nat.eq_or_lt_of_le hj with rfl | hj'
      · exact hps
      · exact hmin j hj' hji
    · rw [hps] at h
      simp only [Option.some.injEq] at h
      subst h
      exact ⟨hps, le_refl s, by omega, fun j hj hji => absurd (lt_of_le_of_lt hj hji) (lt_irrefl s)⟩

theorem cutLabel_lt {mn mx v : ℚ} {k : ℕ} (hk : 1 ≤ k) : cutLabel mn mx k v < k := by
  unfold cutLabel
  cases hfind : (List.range k).find?
      (fun i : ℕ => decide (v ≤ (cutEdges mn mx).1
        + ((i : ℚ) + 1) * ((cutEdges mn mx).2 - (cutEdges mn mx).1) / (k : ℚ))) with
  | none =>
    simp only [hfind]
    omega
  | some i =>
    simp only [hfind]
    exact List.mem_range.mp (List.mem_of_find?_eq_some hfind)

theorem cutLabel_spec {mn mx v : ℚ} {k : ℕ} (hk : 1 ≤ k) (hne : mn ≠ mx)
    (hmx : v ≤ mx) :
    v ≤ mn + ((cutLabel mn mx k v : ℚ) + 1) * (mx - mn) / (k : ℚ) ∧
      (cutLabel mn mx k v = 0 ∨
        mn + (cutLabel mn mx k v : ℚ) * (mx - mn) / (k : ℚ) < v) := by
  have hedges : cutEdges mn mx = (mn, mx) := by
    unfold cutEdges
    rw [if_neg hne]
  have hkq : (0 : ℚ) < (k : ℚ) := by exact_mod_cast hk
  have hlast : v ≤ mn + (((k - 1 : ℕ) : ℚ) + 1) * (mx - mn) / (k : ℚ) := by
    have hcast : (((k - 1 : ℕ) : ℚ) + 1) = (k : ℚ) := by
      have : (k - 1) + 1 = k := Nat.succ_pred_eq_of_pos hk
      exact_mod_cast this
    have heq : mn + (k : ℚ) * (mx - mn) / (k : ℚ) = mx := by
      field_simp
    rw [hcast, heq]
    exact hmx
  unfold cutLabel
  rw [hedges]
  simp only
  cases hfind : (List.range k).find?
      (fun i : ℕ => decide (v ≤ mn + ((i : ℚ) + 1) * (mx - mn) / (k : ℚ))) with
  | none =>
    exfalso
    have := List.find?_eq_none.mp hfind (k - 1) (List.mem_range.mpr (by omega))
    simp only [decide_eq_true_eq] at this
    exact this hlast
  | some i =>
    simp only [hfind]
    rw [List.range_eq_range'] at hfind
    obtain ⟨hpi, _, _, hmin⟩ := find?_range'_first k 0 i hfind
    simp only [decide_eq_true_eq] at hpi
    refine ⟨hpi, ?_⟩
    rcases Nat.eq_zero_or_pos i with rfl | hpos
    · exact Or.inl rfl
    · right
      have := hmin (i - 1) (Nat.zero_le _) (by omega)
      simp only [decide_eq_false_iff_not, not_le] at this
      have hcast : (((i - 1 : ℕ) : ℚ) + 1) = (i : ℚ) := by
        have : (i - 1) + 1 = i := Nat.succ_pred_eq_of_pos hpos
        exact_mod_cast this
      rw [hcast] at this
      exact this

theorem zip_map_self {α β : Type} (f : α → β) (l : List α) :
    (l.map f).zip l = l.map (fun a => (f a, a)) := by
  have := List.zip_map' f id l
  simpa using this

theorem dropNA_map_map (f : ℚ → ℚ) (xs : List Val) :
    dropNA (xs.map (fun o => o.map f)) = (dropNA xs).map f := by
  induction xs with
  | nil => rfl
  | cons h t ih => cases h <;> simp [dropNA, ih]

theorem qMin_map_iso (f : ℚ → ℚ) (hf : ∀ a b, f a ≤ f b ↔ a ≤ b)
    (h : ℚ) (t : List ℚ) : qMin ((h :: t).map f) = f (qMin (h :: t)) := by
  induction t generalizing h with
  | nil => rfl
  | cons a t' ih =>
    have hstep : (if f h ≤ f a then f h else f a) = f (if h ≤ a then h else a) := by
      by_cases hha : h ≤ a
      · rw [if_pos ((hf h a).mpr hha), if_pos hha]
      · rw [if_neg (fun hc => hha ((hf h a).mp hc)), if_neg hha]
    show List.foldl _ (if f h ≤ f a then f h else f a) (t'.map f) = _
    rw [hstep]
    exact ih (if h ≤ a then h else a)

theorem qMax_map_iso (f : ℚ → ℚ) (hf : ∀ a b, f a ≤ f b ↔ a ≤ b)
    (h : ℚ) (t : List ℚ) : qMax ((h :: t).map f) = f (qMax (h :: t)) := by
  induction t generalizing h with
  | nil => rfl
  | cons a t' ih =>
    have hstep : (if f a ≤ f h then f h else f a) = f (if a ≤ h then h else a) := by
      by_cases hha : a ≤ h
      · rw [if_pos ((hf a h).mpr hha), if_pos hha]
      · rw [if_neg (fun hc => hha ((hf a h).mp hc)), if_neg hha]
    show List.foldl _ (if f a ≤ f h then f h else f a) (t'.map f) = _
    rw [hstep]
    exact ih (if a ≤ h then h else a)

theorem div_frac_cancel (a b c : ℚ) (hc : c ≠ 0) : (a / c) / (b / c) = a / b := by
  rcases eq_or_ne b 0 with h | h
  · simp [h]
  · field_simp

theorem dropNA_rankMinKeep (xs : List Val) :
    dropNA (rankMinKeep xs) = (dropNA xs).map
      (fun v => ((1 + (dropNA xs).countP (fun w => decide (w < v)) : ℕ) : ℚ)) := by
  simp only [rankMinKeep]
  exact dropNA_map_map _ xs

theorem rankMinKeepPct_eq_map (xs : List Val) :
    rankMinKeepPct xs = (rankMinKeep xs).map
      (fun o => o.map (fun r => r / ((dropNA xs).length : ℚ))) := by
  simp only [rankMinKeepPct, rankMinKeep, List.map_map]
  apply List.map_congr_left
  intro o _
  cases o <;> simp [Function.comp]

theorem dropNA_rankMinKeepPct (xs : List Val) :
    dropNA (rankMinKeepPct xs) = (dropNA (rankMinKeep xs)).map
      (fun r => r / ((dropNA xs).length : ℚ)) := by
  rw [rankMinKeepPct_eq_map, dropNA_map_map]

theorem pct_normalize_eq {c : ℚ} (hc : 0 < c) (h : ℚ) (t : List ℚ) (r : ℚ) :
    (if qMax ((h :: t).map (fun u => u / c)) = qMin ((h :: t).map (fun u => u / c))
      then (none : Val)
      else some ((r / c - qMin ((h :: t).map (fun u => u / c)))
        / (qMax ((h :: t).map (fun u => u / c)) - qMin ((h :: t).map (fun u => u / c)))))
    = (if qMax (h :: t) = qMin (h :: t) then none
       else some ((r - qMin (h :: t)) / (qMax (h :: t) - qMin (h :: t)))) := by
  have hcne : c ≠ 0 := ne_of_gt hc
  have hdiv : ∀ a b : ℚ, a / c ≤ b / c ↔ a ≤ b :=
    fun a b => div_le_div_iff_of_pos_right hc
  rw [qMin_map_iso _ hdiv, qMax_map_iso _ hdiv]
  by_cases hg : qMax (h :: t) = qMin (h :: t)
  · rw [if_pos hg, if_pos (by rw [hg])]
  · have hgq : ¬ (qMax (h :: t) / c = qMin (h :: t) / c) := by
      intro hcc
      apply hg
      field_simp at hcc
      exact hcc
    rw [if_neg hg, if_neg hgq]
    congr 1
    rw [← sub_div, ← sub_div, div_frac_cancel _ _ _ hcne]

theorem contains_true_iff_mem {l : List (List Val)} {k : List Val} :
    l.contains k = true ↔ k ∈ l := by
  simp

theorem dedupOnAux_subset (cols keys : List String) :
    ∀ (rows seen : List (List Val)) (r : List Val),
      r ∈ dedupOnAux cols keys seen rows → r ∈ rows := by
  intro rows
  induction rows with
  | nil => intro seen r h; simp [dedupOnAux] at h
  | cons a t ih =>
    intro seen r h
    rw [dedupOnAux] at h
    by_cases hseen : seen.contains (keyOf cols keys a)
    · rw [if_pos hseen] at h
      exact List.mem_cons_of_mem a (ih _ r h)
    · rw [if_neg hseen] at h
      rcases List.mem_cons.mp h with rfl | h2
      · exact List.mem_cons_self _ _
      · exact List.mem_cons_of_mem a (ih _ r h2)

theorem dedupOnAux_keys (cols keys : List String) :
    ∀ (rows seen : List (List Val)),
      ((dedupOnAux cols keys seen rows).map (keyOf cols keys)).Nodup ∧
      (∀ k, k ∈ (dedupOnAux cols keys seen rows).map (keyOf cols keys) ↔
        (k ∈ rows.map (keyOf cols keys) ∧ k ∉ seen)) := by
  intro rows
  induction rows with
  | nil => intro seen; simp [dedupOnAux]
  | cons a t ih =>
    intro seen
    rw [dedupOnAux]
    by_cases hseen : seen.contains (keyOf cols keys a)
    · rw [if_pos hseen]
      obtain ⟨hnd, hmem⟩ := ih seen
      refine ⟨hnd, fun k => ?_⟩
      rw [hmem k, List.map_cons, List.mem_cons]
      constructor
      · rintro ⟨hk, hns⟩
        exact ⟨Or.inr hk, hns⟩
      · rintro ⟨hk | hk, hns⟩
        · exact absurd (contains_true_iff_mem.mp (hk ▸ hseen)) hns
        · exact ⟨hk, hns⟩
    · rw [if_neg hseen]
      obtain ⟨hnd, hmem⟩ := ih (seen ++ [keyOf cols keys a])
      constructor
      · rw [List.map_cons]
        refine List.nodup_cons.mpr ⟨?_, hnd⟩
        intro hin
        have := (hmem _).mp hin
        simp at this
      · intro k
        rw [List.map_cons, List.mem_cons, hmem k, List.map_cons, List.mem_cons]
        constructor
        · rintro (rfl | ⟨hk, hns⟩)
          · exact ⟨Or.inl rfl, fun hc => hseen (contains_true_iff_mem.mpr hc)⟩
          · simp only [List.mem_append, List.mem_singleton, not_or] at hns
            exact ⟨Or.inr hk, hns.1⟩
        · rintro ⟨rfl | hk, hns⟩
          · exact Or.inl rfl
          · by_cases hka : k = keyOf cols keys a
            · exact Or.inl hka
            · refine Or.inr ⟨hk, ?_⟩
              simp only [List.mem_append, List.mem_singleton, not_or]
              exact ⟨hns, hka⟩

theorem length_filter_le_one_of_nodup_map {α β : Type} [DecidableEq β]
    (f : α → β) (b : β) :
    ∀ d : List α, ((d.map f).Nodup) →
      (d.filter (fun a => decide (b = f a))).length ≤ 1 := by
  intro d
  induction d with
  | nil => intro _; simp
  | cons a t ih =>
    intro hnd
    rw [List.map_cons, List.nodup_cons] at hnd
    obtain ⟨hna, hnt⟩ := hnd
    rw [List.filter_cons]
    by_cases hba : b = f a
    · rw [if_pos (by simpa using hba)]
      have hzero : t.filter (fun a2 => decide (b = f a2)) = [] := by
        rw [List.filter_eq_nil_iff]
        intro c hc hbc
        simp only [decide_eq_true_eq] at hbc
        apply hna
        rw [← hba, hbc]
        exact List.mem_map_of_mem f hc
      simp [hzero]
    · rw [if_neg (by simpa using hba)]
      exact ih hnt

theorem flatMap_if_filter {α : Type} (l : List α) (p : α → Bool) :
    (l.flatMap (fun a => if p a = true then [a] else [])) = l.filter p := by
  induction l with
  | nil => rfl
  | cons a t ih =>
    rw [List.flatMap_cons, List.filter_cons]
    by_cases hp : p a = true
    · rw [if_pos hp, if_pos hp, ih]
      rfl
    · rw [if_neg hp, if_neg hp, ih]
      rfl

theorem filter_ne_nil_iff_any {α : Type} (l : List α) (p : α → Bool) :
    l.filter p ≠ [] ↔ l.any p = true := by
  rw [Ne, List.filter_eq_nil_iff, List.any_eq_true]
  push_neg
  constructor
  · rintro ⟨a, ha, hp⟩
    exact ⟨a, ha, by simpa using hp⟩
  · rintro ⟨a, ha, hp⟩
    exact ⟨a, ha, by simpa using hp⟩

theorem semiJoinRows_explicit (x y : DF) (bs : List String) :
    semiJoinRows x y (some bs)
      = x.rows.filter (fun rx => y.rows.any (keyMatch x y bs rx)) := by
  have hd := dedupOnAux_keys y.cols bs y.rows []
  have hnd : ((dedupOn y.cols bs y.rows).map (keyOf y.cols bs)).Nodup := by
    simpa [dedupOn] using hd.1
  have hmem : ∀ k, k ∈ (dedupOn y.cols bs y.rows).map (keyOf y.cols bs) ↔
      k ∈ y.rows.map (keyOf y.cols bs) := by
    intro k
    have := hd.2 k
    simpa [dedupOn] using this
  have hpt : ∀ rx, ((dedupOn y.cols bs y.rows).filter (keyMatch x y bs rx)).map
      (fun _ => rx) = if (y.rows.any (keyMatch x y bs rx)) = true then [rx] else [] := by
    intro rx
    have hiff : (dedupOn y.cols bs y.rows).filter (keyMatch x y bs rx) ≠ [] ↔
        y.rows.any (keyMatch x y bs rx) = true := by
      rw [filter_ne_nil_iff_any, List.any_eq_true, List.any_eq_true]
      constructor
      · rintro ⟨rd, hrd, hm⟩
        exact ⟨rd, dedupOnAux_subset y.cols bs y.rows [] rd (by simpa [dedupOn] using hrd), hm⟩
      · rintro ⟨ry, hry, hm⟩
        have hk : keyOf y.cols bs ry ∈ (dedupOn y.cols bs y.rows).map (keyOf y.cols bs) := by
          rw [hmem]
          exact List.mem_map_of_mem _ hry
        obtain ⟨rd, hrd, hkeq⟩ := List.mem_map.mp hk
        refine ⟨rd, hrd, ?_⟩
        simp only [keyMatch, decide_eq_true_eq] at hm ⊢
        rw [hkeq, ← hm]
    have hlen : ((dedupOn y.cols bs y.rows).filter (keyMatch x y bs rx)).length ≤ 1 := by
      have := length_filter_le_one_of_nodup_map (keyOf y.cols bs)
          (keyOf x.cols bs rx) (dedupOn y.cols bs y.rows) hnd
      simpa [keyMatch] using this
    cases hflt : (dedupOn y.cols bs y.rows).filter (keyMatch x y bs rx) with
    | nil =>
      rw [if_neg ?_]
      · rfl
      · intro hany
        exact (hiff.mpr hany) hflt
    | cons a t =>
      have ht : t = [] := by
        have := hflt ▸ hlen
        simp at this
        exact this
      subst ht
      rw [if_pos (hiff.mp (by rw [hflt]; simp))]
      rfl
  unfold semiJoinRows
  simp only
  calc x.rows.flatMap (fun rx => ((dedupOn y.cols bs y.rows).filter
        (fun ry => keyMatch x y bs rx ry)).map (fun _ => rx))
      = x.rows.flatMap (fun rx =>
          if (y.rows.any (keyMatch x y bs rx)) = true then [rx] else []) := by
        simp only [hpt]
    _ = x.rows.filter (fun rx => y.rows.any (keyMatch x y bs rx)) :=
        flatMap_if_filter _ _

theorem antiJoinRows_explicit (x y : DF) (bs : List String) :
    antiJoinRows x y (some bs)
      = x.rows.filter (fun rx => !(y.rows.any (keyMatch x y bs rx))) := by
  have hpt : ∀ rx, (if y.rows.filter (fun ry => keyMatch x y bs rx ry) = [] then [rx] else ([] : List (List Val)))
      = if (!(y.rows.any (keyMatch x y bs rx))) = true then [rx] else [] := by
    intro rx
    by_cases h : y.rows.filter (fun ry => keyMatch x y bs rx ry) = []
    · have hfalse : y.rows.any (keyMatch x y bs rx) = false := by
        rw [List.any_eq_false]
        rw [List.filter_eq_nil_iff] at h
        intro a ha
        simpa using h a ha
      rw [if_pos h, hfalse]
      simp
    · have htrue : y.rows.any (keyMatch x y bs rx) = true := by
        rw [← filter_ne_nil_iff_any]
        exact h
      rw [if_neg h, htrue]
      simp
  unfold antiJoinRows
  simp only
  calc x.rows.flatMap (fun rx => if y.rows.filter (fun ry => keyMatch x y bs rx ry) = []
        then [rx] else [])
      = x.rows.flatMap (fun rx =>
          if (!(y.rows.any (keyMatch x y bs rx))) = true then [rx] else []) := by
        simp only [hpt]
    _ = _ := flatMap_if_filter _ _

theorem rowNumberGroupedAux_slice (g : ℕ) (gs seen : List ℕ) :
    groupSlice g gs (rowNumberGroupedAux seen gs)
      = List.range' (seen.countP (fun h => decide (h = g)) + 1)
          (gs.countP (fun h => decide (h = g))) := by
  induction gs generalizing seen with
  | nil => simp [groupSlice, rowNumberGroupedAux]
  | cons h t ih =>
    rw [rowNumberGroupedAux, groupSlice_cons]
    by_cases hg : h = g
    · subst hg
      rw [if_pos rfl, ih]
      have hseen : (seen ++ [h]).countP (fun x => decide (x = h))
          = seen.countP (fun x => decide (x = h)) + 1 := by
        simp [List.countP_append]
      have hcnt : (h :: t).countP (fun x => decide (x = h))
          = t.countP (fun x => decide (x = h)) + 1 := by
        simp [List.countP_cons]
      rw [hseen, hcnt, List.range'_succ]
    · rw [if_neg hg, ih]
      have hseen : (seen ++ [h]).countP (fun x => decide (x = g))
          = seen.countP (fun x => decide (x = g)) := by
        simp [List.countP_append, hg]
      have hcnt : (h :: t).countP (fun x => decide (x = g))
          = t.countP (fun x => decide (x = g)) := by
        simp [List.countP_cons, hg]
      rw [hseen, hcnt]

theorem rowVal_map (f : String → Val) :
    ∀ (cols : List String) (c : String), c ∈ cols → rowVal cols (cols.map f) c = f c := by
  intro cols
  induction cols with
  | nil => intro c hc; cases hc
  | cons c2 cs ih =>
    intro c hc
    rw [List.map_cons, rowVal]
    by_cases h2 : c2 = c
    · rw [if_pos h2, h2]
    · rw [if_neg h2]
      rcases List.mem_cons.mp hc with rfl | h
      · exact absurd rfl h2
      · exact ih c h

theorem joinKernel_some_of_ne_nil (x y : DF) (how : JoinHow) (bs : List String)
    (hbs : bs ≠ []) : joinKernel x y how (some bs) = mergeOn x y bs how := by
  cases bs with
  | nil => exact absurd rfl hbs
  | cons b bs2 => rfl

theorem mem_outCols_of_y {x y : DF} {bs : List String} {c : String}
    (hbx : ∀ c2 ∈ bs, c2 ∈ x.cols) (hc : c ∈ y.cols) : c ∈ outColsOn x y bs := by
  unfold outColsOn
  by_cases hb : c ∈ bs
  · exact List.mem_append_left _ (hbx c hb)
  · refine List.mem_append_right _ (List.mem_filter.mpr ⟨hc, ?_⟩)
    simp [hb]

theorem mem_outCols_of_x {x y : DF} {bs : List String} {c : String}
    (hc : c ∈ x.cols) : c ∈ outColsOn x y bs :=
  List.mem_append_left _ hc

theorem mkJoinRow_val {x y : DF} {bs : List String} {c : String}
    (orx ory : Option (List Val)) (hc : c ∈ outColsOn x y bs) :
    rowVal (outColsOn x y bs) (mkJoinRow x y bs orx ory) c
      = (if bs.contains c then
          match orx, ory with
          | some rx, _ => rowVal x.cols rx c
          | none, some ry => rowVal y.cols ry c
          | none, none => none
        else if x.cols.contains c then
          match orx with
          | some rx => rowVal x.cols rx c
          | none => none
        else
          match ory with
          | some ry => rowVal y.cols ry c
          | none => none) := by
  unfold mkJoinRow
  exact rowVal_map _ _ _ hc

theorem projY_matched {x y : DF} {bs : List String} {rx ry : List Val}
    (hbx : ∀ c ∈ bs, c ∈ x.cols) (hcommon : ∀ c, c ∈ x.cols → c ∈ y.cols → c ∈ bs)
    (hmatch : keyMatch x y bs rx ry = true) :
    projCols y.cols (outColsOn x y bs) (mkJoinRow x y bs (some rx) (some ry))
      = projCols y.cols y.cols ry := by
  unfold projCols
  apply List.map_congr_left
  intro c hc
  rw [mkJoinRow_val _ _ (mem_outCols_of_y hbx hc)]
  simp only [keyMatch, decide_eq_true_eq] at hmatch
  by_cases hb : c ∈ bs
  · rw [if_pos (by simpa using hb)]
    exact List.map_inj_left.mp hmatch c hb
  · rw [if_neg (by simpa using hb)]
    have hnx : c ∉ x.cols := fun hx => hb (hcommon c hx hc)
    rw [if_neg (by simpa using hnx)]

theorem projY_unmatched {x y : DF} {bs : List String} {ry : List Val}
    (hbx : ∀ c ∈ bs, c ∈ x.cols) (hcommon : ∀ c, c ∈ x.cols → c ∈ y.cols → c ∈ bs) :
    projCols y.cols (outColsOn x y bs) (mkJoinRow x y bs none (some ry))
      = projCols y.cols y.cols ry := by
  unfold projCols
  apply List.map_congr_left
  intro c hc
  rw [mkJoinRow_val _ _ (mem_outCols_of_y hbx hc)]
  by_cases hb : c ∈ bs
  · rw [if_pos (by simpa using hb)]
  · rw [if_neg (by simpa using hb)]
    have hnx : c ∉ x.cols := fun hx => hb (hcommon c hx hc)
    rw [if_neg (by simpa using hnx)]

theorem unmatched_x_cols_none {x y : DF} {bs : List String} {ry : List Val} {c : String}
    (hcx : c ∈ x.cols) (hcb : c ∉ bs) :
    rowVal (outColsOn x y bs) (mkJoinRow x y bs none (some ry)) c = none := by
  rw [mkJoinRow_val _ _ (mem_outCols_of_x hcx)]
  rw [if_neg (by simpa using hcb), if_pos (by simpa using hcx)]

end Datar

namespace DatarClaims
open Datar

/-- C7: for every ungrouped table with `n` rows, `row_number` returns
exactly the sequence `[1, 2, ..., n]`; for every grouped column the
numbering restarts at 1 within each group (the rows of group `g`, read
in row order, are numbered `1, 2, ..., count g`). -/
theorem claim_C7 :
    (∀ n : ℕ, rowNumberDF n = (List.range n).map (fun i => i + 1)) ∧
    (∀ (gs : List ℕ) (g : ℕ),
      groupSlice g gs (rowNumberGrouped gs)
        = List.range' 1 (gs.countP (fun h => decide (h = g)))) := by
  refine ⟨fun n => range'_one_eq_map n, fun gs g => ?_⟩
  have := rowNumberGroupedAux_slice g gs []
  simpa [rowNumberGrouped] using this

/-- C8: each rank-family kernel maps an empty input to an empty output
(and, being a total function of the embedded branch conditions, raises
no error doing so): `row_number` on a 0-row table, `ntile` for any
bucket count, `percent_rank` and `cume_dist` all yield `[]` on empty
input. -/
theorem claim_C8 (n : ℕ) :
    rowNumberDF 0 = [] ∧ ntileArr [] n = [] ∧
    percentRankCode [] = [] ∧ cumeDistCode [] = [] := by
  refine ⟨rfl, ?_, rfl, rfl⟩
  simp [ntileArr]

/-- C9: the strict selector `all_of` errors exactly when some requested
name is absent from the columns (returning the requested names
unchanged otherwise), while the permissive selector `any_of` never
errors: it returns exactly the requested names that are columns and an
empty selection when none are. -/
theorem claim_C9 (cols xs : List String) :
    (allOf cols xs = .ok xs ↔ ∀ e ∈ xs, e ∈ cols) ∧
    ((∃ e ∈ xs, e ∉ cols) → allOf cols xs = .error "ColumnNotExistingError") ∧
    (∀ e, e ∈ anyOf cols xs ↔ e ∈ xs ∧ e ∈ cols) ∧
    ((∀ e ∈ xs, e ∉ cols) → anyOf cols xs = []) := by
  have hiff : xs.filter (fun e => !(cols.contains e)) = [] ↔ ∀ e ∈ xs, e ∈ cols := by
    rw [List.filter_eq_nil_iff]
    constructor
    · intro h e he
      have := h e he
      simpa using this
    · intro h e he
      simpa using h e he
  refine ⟨?_, ?_, ?_, ?_⟩
  · unfold allOf
    by_cases h : xs.filter (fun e => !(cols.contains e)) = []
    · rw [if_pos h]
      exact ⟨fun _ => hiff.mp h, fun _ => rfl⟩
    · rw [if_neg h]
      constructor
      · intro hc
        simp at hc
      · intro hall
        exact absurd (hiff.mpr hall) h
  · rintro ⟨e, he, hne⟩
    unfold allOf
    exact if_neg (fun hnil => hne (hiff.mp hnil e he))
  · intro e
    simp [anyOf]
  · intro hall
    unfold anyOf
    rw [List.filter_eq_nil_iff]
    intro e he
    simpa using hall e he

/-- C6: `percent_rank` as implemented (normalising percentile min-ranks
by `(r − min)/(max − min)`, a degenerate rank range giving `0/0` = NaN =
missing) coincides with the spec's formula
`(rank − min_rank)/(max_rank − min_rank)` computed on plain min-method
ranks restricted to the non-missing values, missing inputs staying
missing; the grouped kernel computes exactly that formula independently
within each row's group slice; `percent_rank([1,2,3,4])` is
`[0, 1/3, 2/3, 1]`, and the all-tied `[5,5]` (degenerate rank range)
is all-missing. -/
theorem claim_C6 :
    (∀ xs : List Val, percentRankCode xs = percentRankSpec xs) ∧
    (∀ xs : List Val, percentRankSpec xs = xs.map (percentRankSpecAt xs)) ∧
    (∀ pairs : List (ℕ × Val),
      percentRankGrouped pairs = pairs.map (fun p =>
        percentRankSpecAt ((pairs.filter (fun q => q.1 = p.1)).map (fun q => q.2)) p.2)) ∧
    percentRankCode [some 1, some 2, some 3, some 4]
      = [some 0, some (1/3), some (2/3), some 1] ∧
    percentRankCode [some 5, some 5] = [none, none] := by
  refine ⟨?_, ?_, ?_, ?_, ?_⟩
  · intro xs
    by_cases h0 : xs.length = 0
    · simp [percentRankCode, percentRankSpec, h0]
    · simp only [percentRankCode, percentRankSpec]
      rw [if_neg h0, if_neg h0]
      rw [dropNA_rankMinKeepPct, rankMinKeepPct_eq_map, List.map_map]
      apply List.map_congr_left
      intro o ho
      cases o with
      | none => rfl
      | some r =>
        have hr : r ∈ dropNA (rankMinKeep xs) := dropNA_mem.mpr ho
        obtain ⟨h1, t1, hrr⟩ : ∃ h1 t1, dropNA (rankMinKeep xs) = h1 :: t1 := by
          cases hx : dropNA (rankMinKeep xs) with
          | nil => rw [hx] at hr; cases hr
          | cons a l => exact ⟨a, l, rfl⟩
        have hxsne : dropNA xs ≠ [] := by
          intro hnil
          rw [dropNA_rankMinKeep, hnil] at hrr
          exact absurd hrr (by simp)
        have hc : (0 : ℚ) < ((dropNA xs).length : ℚ) := by
          have : 0 < (dropNA xs).length := List.length_pos.mpr hxsne
          exact_mod_cast this
        simp only [Function.comp, Option.map_some', Option.some_bind]
        rw [hrr]
        exact pct_normalize_eq hc h1 t1 r
  · intro xs
    by_cases h0 : xs.length = 0
    · have hnil : xs = [] := List.length_eq_zero.mp h0
      subst hnil
      rfl
    · simp only [percentRankSpec]
      rw [if_neg h0]
      simp only [rankMinKeep, List.map_map]
      apply List.map_congr_left
      intro o _
      simp only [percentRankSpecAt, rankMinKeep]
      cases o <;> rfl
  · intro pairs
    simp only [percentRankGrouped]
    apply List.map_congr_left
    intro p hp
    cases hv : p.2 with
    | none => simp [percentRankSpecAt, hv]
    | some v =>
      have hpmem : p ∈ pairs.filter (fun q => decide (q.1 = p.1)) :=
        List.mem_filter.mpr ⟨hp, by simp⟩
      have hvmem : some v ∈ (pairs.filter (fun q => q.1 = p.1)).map (fun q => q.2) := by
        rw [← hv]
        exact List.mem_map_of_mem _ hpmem
      have hvd : v ∈ dropNA ((pairs.filter (fun q => q.1 = p.1)).map (fun q => q.2)) :=
        dropNA_mem.mpr hvmem
      have hgne : dropNA ((pairs.filter (fun q => q.1 = p.1)).map (fun q => q.2)) ≠ [] :=
        List.ne_nil_of_mem hvd
      have hc : (0 : ℚ)
          < ((dropNA ((pairs.filter (fun q => q.1 = p.1)).map (fun q => q.2))).length : ℚ) := by
        have : 0 < (dropNA ((pairs.filter (fun q => q.1 = p.1)).map (fun q => q.2))).length :=
          List.length_pos.mpr hgne
        exact_mod_cast this
      obtain ⟨h1, t1, hrr⟩ : ∃ h1 t1,
          dropNA (rankMinKeep ((pairs.filter (fun q => q.1 = p.1)).map (fun q => q.2)))
            = h1 :: t1 := by
        cases hx : dropNA (rankMinKeep ((pairs.filter (fun q => q.1 = p.1)).map (fun q => q.2))) with
        | nil =>
          rw [dropNA_rankMinKeep] at hx
          exact absurd (List.map_eq_nil_iff.mp hx) hgne
        | cons a l => exact ⟨a, l, rfl⟩
      simp only [percentRankSpecAt, hv, Option.some_bind]
      rw [dropNA_rankMinKeepPct, hrr]
      exact pct_normalize_eq hc h1 t1 _
  · have hd : dropNA [some 1, some 2, some 3, some 4] = [1, 2, 3, 4] := by
      norm_num [dropNA]
    simp only [percentRankCode]
    rw [if_neg (by norm_num), dropNA_rankMinKeepPct, dropNA_rankMinKeep, hd]
    norm_num [rankMinKeepPct, dropNA, qMin, qMax, List.cons_ne_nil]
  · have hd : dropNA [some 5, some 5] = [5, 5] := by
      norm_num [dropNA]
    simp only [percentRankCode]
    rw [if_neg (by norm_num), dropNA_rankMinKeepPct, dropNA_rankMinKeep, hd]
    norm_num [rankMinKeepPct, dropNA, qMin, qMax, List.cons_ne_nil]

/-- C2 (counterexample): the claim predicts that `ntile([1,1,1,10], 2)`
partitions the four values into `min(2, 2 distinct)` rank-ordered
buckets of as-equal-as-possible size — labels `[0,0,1,1]` — but the
code's `pd.cut` equal-width binning over the value range produces
labels `[0,0,0,1]` (bucket sizes 3 and 1). -/
theorem claim_C2_counterexample :
    ntileArr [some 1, some 1, some 1, some 10] 2 = [some 0, some 0, some 0, some 1] ∧
    ntileArr [some 1, some 1, some 1, some 10] 2 ≠ [some 0, some 0, some 1, some 1] := by
  have h : ntileArr [some 1, some 1, some 1, some 10] 2
      = [some 0, some 0, some 0, some 1] := by
    norm_num [ntileArr, cutLabel, cutEdges, qMin, qMax, dropNA, List.range_succ,
      List.cons_ne_nil]
  refine ⟨h, ?_⟩
  rw [h]
  decide

/-- C2 (amended): `ntile(x, n)` caps the bucket count at
`min(n, len(x))` and labels each non-missing value by the equal-WIDTH
bin of the value range `[min, max]` containing it (`pd.cut` semantics:
right-closed bins, first bin extended to include the minimum), not by
equal-size rank buckets; `ntile([1..7], 3)` nevertheless yields
`[0,0,0,1,1,2,2]`; for a grouped input the bucket count is
independently capped by each group's size. -/
theorem claim_C2 :
    (∀ (xs : List Val) (n : ℕ) (o : Option ℕ) (v : ℚ),
      (o, some v) ∈ (ntileArr xs n).zip xs →
      qMin (dropNA xs) ≠ qMax (dropNA xs) → 1 ≤ n →
      ∃ lbl, o = some lbl ∧ lbl < min n xs.length ∧
        v ≤ qMin (dropNA xs) + ((lbl : ℚ) + 1)
            * (qMax (dropNA xs) - qMin (dropNA xs)) / ((min n xs.length : ℕ) : ℚ) ∧
        (lbl = 0 ∨ qMin (dropNA xs) + (lbl : ℚ)
            * (qMax (dropNA xs) - qMin (dropNA xs)) / ((min n xs.length : ℕ) : ℚ) < v)) ∧
    ntileArr [some 1, some 2, some 3, some 4, some 5, some 6, some 7] 3
      = [some 0, some 0, some 0, some 1, some 1, some 2, some 2] ∧
    (∀ (pairs : List (ℕ × Val)) (n : ℕ) (q : Option ℕ × (ℕ × Val)),
      q ∈ (ntileGrouped pairs n).zip pairs → 1 ≤ n →
      ∀ lbl, q.1 = some lbl →
        lbl < min n (pairs.countP (fun r => decide (r.1 = q.2.1)))) := by
  refine ⟨?_, ?_, ?_⟩
  · intro xs n o v hpair hne hn
    have hxs : xs ≠ [] := by
      rintro rfl
      simp [ntileArr] at hpair
    have hdnne : dropNA xs ≠ [] := by
      intro h
      rw [h] at hne
      exact hne rfl
    have harr : ntileArr xs n = xs.map (fun o2 => o2.map
        (fun w => cutLabel (qMin (dropNA xs)) (qMax (dropNA xs)) (min n xs.length) w)) := by
      unfold ntileArr
      rw [if_neg hxs, if_neg hdnne]
    rw [harr, zip_map_self] at hpair
    obtain ⟨a, ha, heq⟩ := List.mem_map.mp hpair
    obtain ⟨h1, h2⟩ := Prod.mk.injEq _ _ _ _ ▸ heq
    subst h2
    have hv : v ∈ dropNA xs := dropNA_mem.mpr ha
    have hmx : v ≤ qMax (dropNA xs) := qMax_ge_mem hv
    have hk : 1 ≤ min n xs.length :=
      le_min hn (List.length_pos.mpr hxs)
    obtain ⟨hb1, hb2⟩ := cutLabel_spec hk hne hmx
    exact ⟨_, h1.symm, cutLabel_lt hk, hb1, hb2⟩
  · have e1 : cutLabel 1 7 3 1 = 0 := by norm_num [cutLabel, cutEdges, List.range_succ]
    have e2 : cutLabel 1 7 3 2 = 0 := by norm_num [cutLabel, cutEdges, List.range_succ]
    have e3 : cutLabel 1 7 3 3 = 0 := by norm_num [cutLabel, cutEdges, List.range_succ]
    have e4 : cutLabel 1 7 3 4 = 1 := by norm_num [cutLabel, cutEdges, List.range_succ]
    have e5 : cutLabel 1 7 3 5 = 1 := by norm_num [cutLabel, cutEdges, List.range_succ]
    have e6 : cutLabel 1 7 3 6 = 2 := by norm_num [cutLabel, cutEdges, List.range_succ]
    have e7 : cutLabel 1 7 3 7 = 2 := by norm_num [cutLabel, cutEdges, List.range_succ]
    have hd : dropNA [some 1, some 2, some 3, some 4, some 5, some 6, some 7]
        = [1, 2, 3, 4, 5, 6, 7] := by norm_num [dropNA]
    have hmn : qMin [1, 2, 3, 4, 5, 6, 7] = 1 := by norm_num [qMin]
    have hmx : qMax [1, 2, 3, 4, 5, 6, 7] = 7 := by norm_num [qMax]
    rw [ntileArr, if_neg (by simp)]
    simp only [hd]
    rw [if_neg (by simp)]
    norm_num [hmn, hmx, e1, e2, e3, e4, e5, e6, e7]
  · intro pairs n q hq hn lbl hlbl
    unfold ntileGrouped at hq
    rw [zip_map_self] at hq
    obtain ⟨p, hp, heq⟩ := List.mem_map.mp hq
    have hq1 : q.1 = Option.map
        (fun v => cutLabel
          (qMin (dropNA ((pairs.filter (fun q2 => decide (q2.1 = p.1))).map (fun q2 => q2.2))))
          (qMax (dropNA ((pairs.filter (fun q2 => decide (q2.1 = p.1))).map (fun q2 => q2.2))))
          (min n ((pairs.filter (fun q2 => decide (q2.1 = p.1))).map (fun q2 => q2.2)).length)
          v) p.2 := by
      have := congrArg Prod.fst heq
      simpa using this.symm
    have hq2 : p = q.2 := by
      have := congrArg Prod.snd heq
      simpa using this
    rw [hq1] at hlbl
    rw [← hq2]
    cases hval : p.2 with
    | none =>
      rw [hval] at hlbl
      simp at hlbl
    | some v =>
      rw [hval] at hlbl
      simp only [Option.map_some', Option.some.injEq] at hlbl
      have hcnt : ((pairs.filter (fun q2 => decide (q2.1 = p.1))).map
          (fun q2 => q2.2)).length = pairs.countP (fun r => decide (r.1 = p.1)) := by
        rw [List.length_map, ← List.countP_eq_length_filter]
      have hmem : p ∈ pairs.filter (fun q2 => decide (q2.1 = p.1)) :=
        List.mem_filter.mpr ⟨hp, by simp⟩
      have hpos : 1 ≤ pairs.countP (fun r => decide (r.1 = p.1)) := by
        rw [List.countP_eq_length_filter]
        exact List.length_pos.mpr (List.ne_nil_of_mem hmem)
      have hk : 1 ≤ min n (((pairs.filter (fun q2 => decide (q2.1 = p.1))).map
          (fun q2 => q2.2)).length) := by
        rw [hcnt]
        exact le_min hn hpos
      rw [← hlbl]
      calc cutLabel _ _ _ v < _ := cutLabel_lt hk
        _ ≤ min n (pairs.countP (fun r => decide (r.1 = p.1))) := by rw [hcnt]

/-- C5 (counterexample): with `by=None`, `semi_join` de-duplicates the
right side on ALL of its columns rather than on the key columns, so a
left row IS duplicated when two right rows share its key but differ
elsewhere: for `x = {a:[1]}` and `y = {a:[1,1], c:[0,1]}` the result
repeats the single left row. -/
theorem claim_C5_counterexample :
    semiJoinRows ⟨["a"], [[some 1]]⟩ ⟨["a", "c"], [[some 1, some 0], [some 1, some 1]]⟩ none
      = [[some 1], [some 1]] ∧
    semiJoinRows ⟨["a"], [[some 1]]⟩ ⟨["a", "c"], [[some 1, some 0], [some 1, some 1]]⟩ none
      ≠ [[some 1]] := by
  have hac : ¬("a" : String) = "c" := by decide
  have h : semiJoinRows ⟨["a"], [[some 1]]⟩
      ⟨["a", "c"], [[some 1, some 0], [some 1, some 1]]⟩ none
      = [[some 1], [some 1]] := by
    norm_num [semiJoinRows, dedupOn, dedupOnAux, commonCols, keyMatch, keyOf, rowVal, hac,
      List.replicate]
  refine ⟨h, ?_⟩
  rw [h]
  simp

/-- C5 (amended): for an explicitly specified key list, `semi_join`
returns exactly the left rows with at least one right match on the key
and `anti_join` exactly the left rows with none, neither ever
duplicating a left row (the right side is de-duplicated on the key
columns before the match test in `semi_join`; `anti_join` drops all
indicator-"both" rows); with `by=None` the right side is instead
de-duplicated on all of its columns and `semi_join` can duplicate a
left row.  `anti_join({a:[1,2],b:[10,20]}, {a:[2,3],c:[99,100]})` on
`a` yields exactly the left row `a=1, b=10`. -/
theorem claim_C5 :
    (∀ (x y : DF) (bs : List String),
      semiJoinRows x y (some bs)
        = x.rows.filter (fun rx => y.rows.any (keyMatch x y bs rx))) ∧
    (∀ (x y : DF) (bs : List String),
      antiJoinRows x y (some bs)
        = x.rows.filter (fun rx => !(y.rows.any (keyMatch x y bs rx)))) ∧
    antiJoinRows ⟨["a", "b"], [[some 1, some 10], [some 2, some 20]]⟩
        ⟨["a", "c"], [[some 2, some 99], [some 3, some 100]]⟩ (some ["a"])
      = [[some 1, some 10]] := by
  refine ⟨semiJoinRows_explicit, antiJoinRows_explicit, ?_⟩
  rw [antiJoinRows_explicit]
  norm_num [keyMatch, keyOf, rowVal]

/-- C4: `right_join` (for a non-empty explicit key list whose names
occur in both inputs and that covers all common columns) emits its rows
in right-table order — projecting the result rows onto `y`'s columns
gives exactly `y`'s rows in order, each repeated once per left match
(once when unmatched) — and on unmatched right rows the columns coming
from `x` are filled with missing values.  This right-order behaviour is
the documented deviation from dplyr's left-order `right_join`. -/
theorem claim_C4 (x y : DF) (bs : List String) (hbs : bs ≠ [])
    (hbx : ∀ c ∈ bs, c ∈ x.cols) (hby : ∀ c ∈ bs, c ∈ y.cols)
    (hcommon : ∀ c, c ∈ x.cols → c ∈ y.cols → c ∈ bs) :
    ((joinKernel x y .right (some bs)).rows).map (projCols y.cols (outColsOn x y bs))
      = y.rows.flatMap (fun ry =>
          List.replicate (max 1 (x.rows.countP (fun rx => keyMatch x y bs rx ry)))
            (projCols y.cols y.cols ry)) ∧
    (∀ ry ∈ y.rows, (∀ rx ∈ x.rows, ¬ keyMatch x y bs rx ry = true) →
      mkJoinRow x y bs none (some ry) ∈ (joinKernel x y .right (some bs)).rows ∧
      ∀ c ∈ x.cols, c ∉ bs →
        rowVal (outColsOn x y bs) (mkJoinRow x y bs none (some ry)) c = none) := by
  rw [joinKernel_some_of_ne_nil x y .right bs hbs]
  have hrows : (mergeOn x y bs .right).rows = rightRows x y bs := rfl
  constructor
  · rw [hrows]
    unfold rightRows
    rw [List.map_flatMap]
    congr 1
    funext ry
    by_cases hms : x.rows.filter (fun rx => keyMatch x y bs rx ry) = []
    · rw [hms]
      simp only [if_true, List.map_cons, List.map_nil]
      rw [projY_unmatched hbx hcommon]
      have hcnt : x.rows.countP (fun rx => keyMatch x y bs rx ry) = 0 := by
        rw [List.countP_eq_length_filter, hms]
        rfl
      rw [hcnt]
      rfl
    · rw [if_neg hms]
      rw [List.map_map]
      have hcnt : x.rows.countP (fun rx => keyMatch x y bs rx ry)
          = (x.rows.filter (fun rx => keyMatch x y bs rx ry)).length :=
        List.countP_eq_length_filter _ _
      have hpos : 1 ≤ (x.rows.filter (fun rx => keyMatch x y bs rx ry)).length :=
        List.length_pos.mpr hms
      have hmax : max 1 (x.rows.countP (fun rx => keyMatch x y bs rx ry))
          = (x.rows.filter (fun rx => keyMatch x y bs rx ry)).length := by
        rw [hcnt]
        omega
      rw [hmax, ← List.map_const' (x.rows.filter (fun rx => keyMatch x y bs rx ry))
        (projCols y.cols y.cols ry)]
      apply List.map_congr_left
      intro rx hrx
      have hm : keyMatch x y bs rx ry = true := (List.mem_filter.mp hrx).2
      exact projY_matched hbx hcommon hm
  · intro ry hry hnone
    constructor
    · rw [hrows]
      unfold rightRows
      rw [List.mem_flatMap]
      refine ⟨ry, hry, ?_⟩
      have hms : x.rows.filter (fun rx => keyMatch x y bs rx ry) = [] := by
        rw [List.filter_eq_nil_iff]
        exact fun rx hrx => by simpa using hnone rx hrx
      rw [hms]
      simp
    · intro c hcx hcb
      exact unmatched_x_cols_none hcx hcb

/-- C10: giving a mutating join an explicitly empty (but not `None`)
key collection produces a cross join for every join type: the result
has all columns of both inputs, exactly `|x| * |y|` rows, and contains
the concatenation of every row pair; key inference as the common
columns happens only when the specification is `None`. -/
theorem claim_C10 (x y : DF) (how : JoinHow) :
    (joinKernel x y how (some [])).rows.length = x.rows.length * y.rows.length ∧
    (joinKernel x y how (some [])).cols = x.cols ++ y.cols ∧
    (∀ rx ∈ x.rows, ∀ ry ∈ y.rows, rx ++ ry ∈ (joinKernel x y how (some [])).rows) ∧
    joinKernel x y how none = mergeOn x y (commonCols x y) how := by
  refine ⟨?_, rfl, ?_, rfl⟩
  · simp only [joinKernel, crossMerge, List.length_flatMap]
    rw [show (List.length ∘ fun rx => List.map (fun ry => rx ++ ry) y.rows)
        = (fun _ => y.rows.length) from funext (fun rx => by simp)]
    rw [List.map_const', List.sum_replicate, smul_eq_mul, Nat.mul_comm]
  · intro rx hrx ry hry
    simp only [joinKernel, crossMerge, List.mem_flatMap, List.mem_map]
    exact ⟨rx, hrx, ry, hry, rfl⟩

/-- C1: `_reconstruct_tibble` — a rowwise source yields a rowwise
result grouped over the source grouping variables that survive in the
result's columns (order preserved: the surviving list is a sublist of
the source's, containing exactly the survivors); a grouped source
yields a grouped result over the survivors when any survive, inheriting
the source's `sort` / `dropna` / `_drop` policies, and a plain result
otherwise; a plain source yields a plain result.  The result's data is
the raw result table in every case. -/
theorem claim_C1 (orig : GTable) (out : DF) :
    (∀ gv, orig.grouping = .rowwise gv →
      (reconstructTibble orig out).df = out ∧
      (reconstructTibble orig out).grouping = .rowwise (intersectOrd gv out.cols) ∧
      (intersectOrd gv out.cols).Sublist gv ∧
      (∀ c, c ∈ intersectOrd gv out.cols ↔ c ∈ gv ∧ c ∈ out.cols)) ∧
    (∀ gv s dn dr, orig.grouping = .grouped gv s dn dr →
      (reconstructTibble orig out).df = out ∧
      (intersectOrd gv out.cols ≠ [] →
        (reconstructTibble orig out).grouping
          = .grouped (intersectOrd gv out.cols) s dn dr) ∧
      (intersectOrd gv out.cols = [] →
        (reconstructTibble orig out).grouping = .plain) ∧
      (intersectOrd gv out.cols).Sublist gv ∧
      (∀ c, c ∈ intersectOrd gv out.cols ↔ c ∈ gv ∧ c ∈ out.cols)) ∧
    (orig.grouping = .plain →
      (reconstructTibble orig out).df = out ∧
      (reconstructTibble orig out).grouping = .plain) := by
  obtain ⟨df, grouping⟩ := orig
  refine ⟨?_, ?_, ?_⟩
  · intro gv hg
    simp only at hg
    subst hg
    refine ⟨rfl, rfl, List.filter_sublist gv, fun c => ?_⟩
    simp [intersectOrd]
  · intro gv s dn dr hg
    simp only at hg
    subst hg
    refine ⟨?_, ?_, ?_, List.filter_sublist gv, fun c => ?_⟩
    · unfold reconstructTibble
      by_cases h : intersectOrd gv out.cols = [] <;> simp [h]
    · intro h
      unfold reconstructTibble
      simp only [if_neg h]
    · intro h
      unfold reconstructTibble
      simp only [if_pos h]
    · simp [intersectOrd]
  · intro hg
    simp only at hg
    subst hg
    exact ⟨rfl, rfl⟩

/-- C3: the claim (deep copy re-derives a fresh group index) is what
`DatarGroupBy.copy`'s own docstring promises, but the code tests the
misspelt attribute key `"_grouepd"` — never set anywhere, where
`from_groupby` sets `"_grouped"` — so `copy` always falls through to
the plain `DataFrame` copy and `copy(deep=True)` keeps the stale stored
index instead of re-deriving it: on a wrapper whose frame now holds
keys `[0, 1, 1]` but whose stored index `[[0, 1], [2]]` was built from
earlier data, the deep copy still carries `[[0, 1], [2]]` while a
rebuild gives `[[0], [1, 2]]`; the intended spelling would rebuild. -/
theorem claim_C3 :
    copyDGB ⟨⟨["g"], [[some 0], [some 1], [some 1]]⟩,
        ["_grouped", "_group_vars", "_html_footer", "_str_footer"],
        [[0, 1], [2]], ["g"]⟩ true
      = ⟨⟨["g"], [[some 0], [some 1], [some 1]]⟩,
        ["_grouped", "_group_vars", "_html_footer", "_str_footer"],
        [[0, 1], [2]], ["g"]⟩ ∧
    buildIndex ⟨["g"], [[some 0], [some 1], [some 1]]⟩ ["g"] = [[0], [1, 2]] ∧
    (copyDGB ⟨⟨["g"], [[some 0], [some 1], [some 1]]⟩,
        ["_grouped", "_group_vars", "_html_footer", "_str_footer"],
        [[0, 1], [2]], ["g"]⟩ true).storedIndex
      ≠ buildIndex ⟨["g"], [[some 0], [some 1], [some 1]]⟩ ["g"] ∧
    (copyDGBIntended ⟨⟨["g"], [[some 0], [some 1], [some 1]]⟩,
        ["_grouped", "_group_vars", "_html_footer", "_str_footer"],
        [[0, 1], [2]], ["g"]⟩ true).storedIndex
      = buildIndex ⟨["g"], [[some 0], [some 1], [some 1]]⟩ ["g"] := by
  have hbuild : buildIndex ⟨["g"], [[some 0], [some 1], [some 1]]⟩ ["g"]
      = [[0], [1, 2]] := by
    norm_num [buildIndex, keyOf, rowVal, List.enum, List.filterMap_cons]
  have hcopy : copyDGB ⟨⟨["g"], [[some 0], [some 1], [some 1]]⟩,
      ["_grouped", "_group_vars", "_html_footer", "_str_footer"],
      [[0, 1], [2]], ["g"]⟩ true
      = ⟨⟨["g"], [[some 0], [some 1], [some 1]]⟩,
      ["_grouped", "_group_vars", "_html_footer", "_str_footer"],
      [[0, 1], [2]], ["g"]⟩ := by
    unfold copyDGB
    exact if_pos (by decide)
  refine ⟨hcopy, hbuild, ?_, ?_⟩
  · rw [hcopy, hbuild]
    simp
  · unfold copyDGBIntended
    rw [if_neg (show ¬ ("_grouped" ∉ (["_grouped", "_group_vars", "_html_footer",
      "_str_footer"] : List String)) from by decide)]
    norm_num [hbuild]

/-- Witness for C1: reconstructing a result that keeps the grouping
column `"g"` from a grouped source stays grouped over the surviving
column with inherited policies. -/
theorem claim_C1_witness :
    (reconstructTibble ⟨⟨["g"], []⟩, .grouped ["g"] true false true⟩
        ⟨["g", "z"], []⟩).grouping
      = .grouped (intersectOrd ["g"] ["g", "z"]) true false true := by
  have h := (claim_C1 ⟨⟨["g"], []⟩, .grouped ["g"] true false true⟩
      ⟨["g", "z"], []⟩).2.1 ["g"] true false true rfl
  exact h.2.1 (by decide)

/-- Witness for C2: on `[0, 1]` with two buckets, the label of the
first element satisfies the equal-width bin bounds. -/
theorem claim_C2_witness :
    ∃ lbl, (some 0 : Option ℕ) = some lbl ∧ lbl < min 2 ([some (0 : ℚ), some 1].length) ∧
      (0 : ℚ) ≤ qMin (dropNA [some (0 : ℚ), some 1]) + ((lbl : ℚ) + 1)
          * (qMax (dropNA [some (0 : ℚ), some 1]) - qMin (dropNA [some (0 : ℚ), some 1]))
          / ((min 2 ([some (0 : ℚ), some 1].length) : ℕ) : ℚ) ∧
      (lbl = 0 ∨ qMin (dropNA [some (0 : ℚ), some 1]) + (lbl : ℚ)
          * (qMax (dropNA [some (0 : ℚ), some 1]) - qMin (dropNA [some (0 : ℚ), some 1]))
          / ((min 2 ([some (0 : ℚ), some 1].length) : ℕ) : ℚ) < 0) := by
  refine claim_C2.1 [some 0, some 1] 2 (some 0) 0 ?_ ?_ ?_
  · have harr : ntileArr [some (0 : ℚ), some 1] 2 = [some 0, some 1] := by
      norm_num [ntileArr, cutLabel, cutEdges, qMin, qMax, dropNA, List.range_succ,
        List.cons_ne_nil]
    rw [harr]
    simp
  · norm_num [dropNA, qMin, qMax]
  · norm_num

/-- Witness for C4: a one-row right join on key `"a"` projects onto the
right table's rows. -/
theorem claim_C4_witness :
    ((joinKernel ⟨["a"], [[some 1]]⟩ ⟨["a"], [[some 0]]⟩ JoinHow.right
        (some ["a"])).rows).map
        (projCols (DF.mk ["a"] [[some 0]]).cols
          (outColsOn ⟨["a"], [[some 1]]⟩ ⟨["a"], [[some 0]]⟩ ["a"]))
      = (DF.mk ["a"] [[some 0]]).rows.flatMap (fun ry =>
          List.replicate (max 1 ((DF.mk ["a"] [[some 1]]).rows.countP
            (fun rx => keyMatch ⟨["a"], [[some 1]]⟩ ⟨["a"], [[some 0]]⟩ ["a"] rx ry)))
            (projCols (DF.mk ["a"] [[some 0]]).cols (DF.mk ["a"] [[some 0]]).cols ry)) :=
  (claim_C4 ⟨["a"], [[some 1]]⟩ ⟨["a"], [[some 0]]⟩ ["a"] (by decide)
    (fun c hc => hc) (fun c hc => hc) (fun c hc _ => hc)).1

/-- Witness for C9: requesting `["b", "z"]` from columns `["a", "b"]`
makes the strict selector raise. -/
theorem claim_C9_witness :
    allOf ["a", "b"] ["b", "z"] = .error "ColumnNotExistingError" :=
  (claim_C9 ["a", "b"] ["b", "z"]).2.1 ⟨"z", by decide, by decide⟩

/-- Witness for C10: the cross join of two one-row tables contains the
concatenated row pair. -/
theorem claim_C10_witness :
    [(some 0 : Val)] ++ [some 1]
      ∈ (joinKernel ⟨["a"], [[some 0]]⟩ ⟨["b"], [[some 1]]⟩ JoinHow.inner
          (some [])).rows :=
  (claim_C10 ⟨["a"], [[some 0]]⟩ ⟨["b"], [[some 1]]⟩ JoinHow.inner).2.2.1
    [some 0] (by simp) [some 1] (by simp)

end DatarClaims
